import Mathlib

/-!
Verification development for the terminal journal application's text
layout, editing and rendering core (`journal.py`).

Strings are modelled as `List Char`; Python `str.split(' ')`,
slicing, and the word-wrap / editor / renderer functions are embedded
as executable Lean definitions that mirror the source line by line.
-/

namespace Journal

/-- Python `text.split(' ')`: split at every single space character,
keeping empty pieces; the result is always non-empty. -/
def splitOnSpace : List Char → List (List Char)
  | [] => [[]]
  | c :: rest =>
    match splitOnSpace rest with
    | [] => [[]]
    | w :: ws => if c = ' ' then [] :: w :: ws else (c :: w) :: ws

/-- Python `' '.join(pieces)` restricted to a non-empty piece list:
interleave a single space between consecutive pieces. -/
def joinSpace : List (List Char) → List Char
  | [] => []
  | [w] => w
  | w :: ws => w ++ ' ' :: joinSpace ws

/-- The inner `while len(word) > width` loop of `wrap_text`, which
hard-splits an over-long word into width-sized chunks and a remainder.
Structured with explicit fuel so the definition is structural; the
caller passes `word.length` fuel, which suffices whenever `0 < width`
(each iteration removes `width ≥ 1` characters). -/
def chunkFuel : Nat → Nat → List Char → List (List Char) × List Char
  | 0, _, word => ([], word)
  | fuel + 1, width, word =>
    if width < word.length then
      let r := chunkFuel fuel width (word.drop width)
      (word.take width :: r.1, r.2)
    else ([], word)

/-- Chunks and remainder produced by the `while len(word) > width` loop. -/
def chunkWord (width : Nat) (word : List Char) : List (List Char) × List Char :=
  chunkFuel word.length width word

/-- One iteration of the `for word in words` loop of `wrap_text`, acting on
the state `(lines, current_line)`.  When the word is over-long, any pending
`current_line` is flushed, the width-sized chunks are emitted and the
remainder becomes the new `current_line` (in the source the remainder is
picked up by the `if not current_line` branch). -/
def wrapStep (width : Nat) (acc : List (List Char)) (cur word : List Char) :
    List (List Char) × List Char :=
  if width < word.length then
    let r := chunkWord width word
    ((if cur = [] then acc else acc ++ [cur]) ++ r.1, r.2)
  else if cur = [] then (acc, word)
  else if cur.length + 1 + word.length ≤ width then (acc, cur ++ ' ' :: word)
  else (acc ++ [cur], word)

/-- The whole `for word in words` loop of `wrap_text`. -/
def runWords (width : Nat) (acc : List (List Char)) (cur : List Char) :
    List (List Char) → List (List Char) × List Char
  | [] => (acc, cur)
  | word :: rest =>
    let st := wrapStep width acc cur word
    runWords width st.1 st.2 rest

/-- The epilogue of `wrap_text`: `if current_line: lines.append(current_line)`. -/
def finishWrap (st : List (List Char) × List Char) : List (List Char) :=
  if st.2 = [] then st.1 else st.1 ++ [st.2]

/-- The full word loop of `wrap_text` for a positive width, from the split
words to the final `lines` list. -/
def wrapOutput (width : Nat) (text : List Char) : List (List Char) :=
  finishWrap (runWords width [] [] (splitOnSpace text))

/-- `wrap_text(text, width)` from `journal.py`: wrap text to fit within a
given width, breaking at word boundaries.  `width` is a Python `int`, hence
modelled as `Int`; `width <= 0` returns `[]`, and an empty result is
replaced by `[""]` (`return lines if lines else [""]`). -/
def wrap_text (text : List Char) (width : Int) : List (List Char) :=
  if width ≤ 0 then []
  else if wrapOutput width.toNat text = [] then [[]]
  else wrapOutput width.toNat text

example : wrap_text "hello".toList 10 = ["hello".toList] := by decide
example : wrap_text "hello world".toList 8 = ["hello".toList, "world".toList] := by decide
example : wrap_text "supercalifragilistic".toList 10 =
    ["supercalif".toList, "ragilistic".toList] := by decide
example : wrap_text "one two three four".toList 8 =
    ["one two".toList, "three".toList, "four".toList] := by decide
example : wrap_text "".toList 10 = [[]] := by decide
example : wrap_text "hello".toList 5 = ["hello".toList] := by decide

/-! ### Length invariants of the wrap loop (claim C2) -/

theorem chunkFuel_chunks_length : ∀ (fuel width : Nat) (word : List Char),
    ∀ c ∈ (chunkFuel fuel width word).1, c.length = width
  | 0, _, _ => by simp [chunkFuel]
  | fuel + 1, width, word => by
    simp only [chunkFuel]
    split
    · next h =>
      intro c hc
      rcases List.mem_cons.mp hc with rfl | hc
      · simp [List.length_take]; omega
      · exact chunkFuel_chunks_length fuel width _ c hc
    · simp

theorem chunkFuel_rem_length : ∀ (fuel width : Nat) (word : List Char),
    0 < width → word.length ≤ fuel → (chunkFuel fuel width word).2.length ≤ width
  | 0, width, word => by
    intro hw hf
    have : word = [] := List.length_eq_zero.mp (Nat.le_zero.mp hf)
    simp [chunkFuel, this]
  | fuel + 1, width, word => by
    intro hw hf
    simp only [chunkFuel]
    split
    · next h =>
      exact chunkFuel_rem_length fuel width _ hw (by simp [List.length_drop]; omega)
    · next h => simpa using Nat.not_lt.mp h

theorem wrapStep_length_inv {width : Nat} {acc : List (List Char)} {cur word : List Char}
    (hw : 0 < width) (hacc : ∀ s ∈ acc, s.length ≤ width) (hcur : cur.length ≤ width) :
    (∀ s ∈ (wrapStep width acc cur word).1, s.length ≤ width) ∧
      (wrapStep width acc cur word).2.length ≤ width := by
  unfold wrapStep
  split
  · next h =>
    refine ⟨?_, chunkFuel_rem_length _ _ _ hw le_rfl⟩
    intro s hs
    rcases List.mem_append.mp hs with hs | hs
    · split at hs
      · exact hacc s hs
      · rcases List.mem_append.mp hs with hs | hs
        · exact hacc s hs
        · simp at hs; subst hs; exact hcur
    · exact le_of_eq (chunkFuel_chunks_length _ _ _ s hs)
  · next h =>
    split
    · exact ⟨hacc, by simpa using Nat.not_lt.mp h⟩
    · split
      · next hfit =>
        refine ⟨hacc, ?_⟩
        simp only [List.length_append, List.length_cons]
        omega
      · refine ⟨?_, by simpa using Nat.not_lt.mp h⟩
        intro s hs
        rcases List.mem_append.mp hs with hs | hs
        · exact hacc s hs
        · simp at hs; subst hs; exact hcur

theorem runWords_length_inv : ∀ (ws : List (List Char)) (width : Nat)
    (acc : List (List Char)) (cur : List Char), 0 < width →
    (∀ s ∈ acc, s.length ≤ width) → cur.length ≤ width →
    (∀ s ∈ (runWords width acc cur ws).1, s.length ≤ width) ∧
      (runWords width acc cur ws).2.length ≤ width
  | [], width, acc, cur => by intro hw hacc hcur; exact ⟨hacc, hcur⟩
  | word :: rest, width, acc, cur => by
    intro hw hacc hcur
    have h := @wrapStep_length_inv width acc cur word hw hacc hcur
    exact runWords_length_inv rest width _ _ hw h.1 h.2

theorem wrap_text_length_le {text : List Char} {width : Int} (hw : 0 < width) :
    ∀ s ∈ wrap_text text width, s.length ≤ width.toNat := by
  unfold wrap_text
  rw [if_neg (by omega)]
  have hw' : 0 < width.toNat := by omega
  have h := runWords_length_inv (splitOnSpace text) width.toNat [] []
    hw' (by simp) (by simp)
  intro s hs
  split at hs
  · simp at hs; subst hs; simp
  · unfold wrapOutput finishWrap at hs
    split at hs
    · exact h.1 s hs
    · rcases List.mem_append.mp hs with hs | hs
      · exact h.1 s hs
      · simp at hs; subst hs; exact h.2

/-- C2: `wrap_text` with non-positive width returns the empty sequence;
with positive width it returns a non-empty sequence of segments, the empty
string yields exactly one empty segment, and every segment's length is at
most the width. -/
theorem wrap_text_basic_invariants :
    (∀ (text : List Char) (width : Int), width ≤ 0 → wrap_text text width = []) ∧
    (∀ (text : List Char) (width : Int), 0 < width →
      wrap_text text width ≠ [] ∧
        ∀ s ∈ wrap_text text width, (s.length : Int) ≤ width) ∧
    (∀ width : Int, 0 < width → wrap_text [] width = [[]]) := by
  refine ⟨?_, ?_, ?_⟩
  · intro text width h
    simp [wrap_text, h]
  · intro text width hw
    constructor
    · unfold wrap_text
      rw [if_neg (by omega)]
      split
      · simp
      · next h => exact h
    · intro s hs
      have := wrap_text_length_le hw s hs
      omega
  · intro width hw
    unfold wrap_text
    rw [if_neg (by omega)]
    simp [wrapOutput, splitOnSpace, runWords, wrapStep, finishWrap]

/-- Witness for C2 at concrete inputs. -/
theorem wrap_text_basic_invariants_witness :
    wrap_text "x".toList 0 = [] ∧
      (wrap_text "hello world".toList 8 ≠ [] ∧
        ∀ s ∈ wrap_text "hello world".toList 8, (s.length : Int) ≤ 8) ∧
      wrap_text [] 5 = [[]] :=
  ⟨wrap_text_basic_invariants.1 "x".toList 0 (by omega),
   wrap_text_basic_invariants.2.1 "hello world".toList 8 (by omega),
   wrap_text_basic_invariants.2.2 5 (by omega)⟩

/-! ### Words, joins and first words -/

/-- The maximal space-free prefix of a piece of text: the first word that
`text.split(' ')` produces from it. -/
def firstWord (l : List Char) : List Char := l.takeWhile (· ≠ ' ')

theorem splitOnSpace_ne_nil (t : List Char) : splitOnSpace t ≠ [] := by
  induction t with
  | nil => simp [splitOnSpace]
  | cons c rest ih =>
    rcases h : splitOnSpace rest with _ | ⟨w, ws⟩
    · exact absurd h ih
    · simp only [splitOnSpace, h]
      split <;> simp

theorem splitOnSpace_noSpace (t : List Char) : ∀ u ∈ splitOnSpace t, ' ' ∉ u := by
  induction t with
  | nil => simp [splitOnSpace]
  | cons c rest ih =>
    rcases h : splitOnSpace rest with _ | ⟨w, ws⟩
    · exact absurd h (splitOnSpace_ne_nil rest)
    · rw [h] at ih
      simp only [splitOnSpace, h]
      by_cases hc : c = ' '
      · subst hc
        rw [if_pos rfl]
        intro u hu
        rcases List.mem_cons.mp hu with rfl | hu
        · simp
        · exact ih u hu
      · rw [if_neg hc]
        intro u hu
        rcases List.mem_cons.mp hu with rfl | hu
        · intro hmem
          rcases List.mem_cons.mp hmem with h' | h'
          · exact hc h'.symm
          · exact ih w (by simp) h'
        · exact ih u (by simp [hu])

theorem joinSpace_splitOnSpace (t : List Char) : joinSpace (splitOnSpace t) = t := by
  induction t with
  | nil => simp [splitOnSpace, joinSpace]
  | cons c rest ih =>
    rcases h : splitOnSpace rest with _ | ⟨w, ws⟩
    · exact absurd h (splitOnSpace_ne_nil rest)
    · rw [h] at ih
      simp only [splitOnSpace, h]
      by_cases hc : c = ' '
      · subst hc
        rw [if_pos rfl]
        simpa [joinSpace] using ih
      · rw [if_neg hc]
        cases ws with
        | nil => simpa [joinSpace] using ih
        | cons w' ws' => simpa [joinSpace] using ih

theorem splitOnSpace_append_space (a b : List Char) :
    splitOnSpace (a ++ ' ' :: b) = splitOnSpace a ++ splitOnSpace b := by
  induction a with
  | nil =>
    rcases h : splitOnSpace b with _ | ⟨w, ws⟩
    · exact absurd h (splitOnSpace_ne_nil b)
    · simp only [List.nil_append, splitOnSpace, h]
      simp
  | cons c a' ih =>
    rcases h : splitOnSpace a' with _ | ⟨w, ws⟩
    · exact absurd h (splitOnSpace_ne_nil a')
    · rw [h] at ih
      have hl : splitOnSpace (a' ++ ' ' :: b) = w :: (ws ++ splitOnSpace b) := by
        rw [ih]; simp
      have hc : (c :: a') ++ ' ' :: b = c :: (a' ++ ' ' :: b) := rfl
      rw [hc]
      simp only [splitOnSpace, hl, h]
      split <;> simp

theorem splitOnSpace_joinSpace (segs : List (List Char)) (h : segs ≠ []) :
    splitOnSpace (joinSpace segs) = (segs.map splitOnSpace).flatten := by
  induction segs with
  | nil => exact absurd rfl h
  | cons s rest ih =>
    cases rest with
    | nil => simp [joinSpace]
    | cons s' rest' =>
      have hj : joinSpace (s :: s' :: rest') = s ++ ' ' :: joinSpace (s' :: rest') := rfl
      rw [hj, splitOnSpace_append_space, ih (by simp)]
      simp

theorem splitOnSpace_head (t : List Char) :
    (splitOnSpace t).head? = some (firstWord t) := by
  induction t with
  | nil => simp [splitOnSpace, firstWord]
  | cons c rest ih =>
    rcases h : splitOnSpace rest with _ | ⟨w, ws⟩
    · exact absurd h (splitOnSpace_ne_nil rest)
    · rw [h] at ih
      simp only [List.head?_cons, Option.some.injEq] at ih
      simp only [splitOnSpace, h]
      by_cases hc : c = ' '
      · subst hc
        rw [if_pos rfl]
        have hf : firstWord (' ' :: rest) = [] := List.takeWhile_cons_of_neg (by simp)
        rw [hf]
        rfl
      · rw [if_neg hc]
        have hf : firstWord (c :: rest) = c :: firstWord rest :=
          List.takeWhile_cons_of_pos (by simp [hc])
        simp [hf, ih]

theorem firstWord_append_space (xs ys : List Char) :
    firstWord (xs ++ ' ' :: ys) = firstWord xs := by
  induction xs with
  | nil =>
    have hf : firstWord (' ' :: ys) = [] := List.takeWhile_cons_of_neg (by simp)
    simpa using hf
  | cons c xs' ih =>
    by_cases hc : c = ' '
    · subst hc
      have h1 : firstWord (' ' :: (xs' ++ ' ' :: ys)) = [] :=
        List.takeWhile_cons_of_neg (by simp)
      have h2 : firstWord (' ' :: xs') = [] := List.takeWhile_cons_of_neg (by simp)
      simpa [h2] using h1
    · have h1 : firstWord (c :: (xs' ++ ' ' :: ys)) = c :: firstWord (xs' ++ ' ' :: ys) :=
        List.takeWhile_cons_of_pos (by simp [hc])
      have h2 : firstWord (c :: xs') = c :: firstWord xs' :=
        List.takeWhile_cons_of_pos (by simp [hc])
      simp only [List.cons_append] at h1 ⊢
      rw [h1, h2, ih]

theorem firstWord_of_noSpace {l : List Char} (h : ' ' ∉ l) : firstWord l = l := by
  induction l with
  | nil => rfl
  | cons c rest ih =>
    simp only [List.mem_cons, not_or] at h
    simp only [firstWord, List.takeWhile_cons] at ih ⊢
    rw [if_pos (by simpa using Ne.symm h.1)]
    rw [ih h.2]

theorem word_length_le_joinSpace {us : List (List Char)} {u : List Char}
    (h : u ∈ us) : u.length ≤ (joinSpace us).length := by
  induction us with
  | nil => simp at h
  | cons w ws ih =>
    cases ws with
    | nil => simp at h; subst h; exact le_rfl
    | cons w' ws' =>
      rcases List.mem_cons.mp h with rfl | h
      · simp [joinSpace]
      · have := ih h
        simp only [joinSpace, List.length_append, List.length_cons]
        omega

theorem joinSpace_cons_append (a b : List Char) (rest : List (List Char)) :
    joinSpace ((a ++ ' ' :: b) :: rest) = a ++ ' ' :: joinSpace (b :: rest) := by
  cases rest with
  | nil => simp [joinSpace]
  | cons r rs => simp [joinSpace]

theorem runWords_append (width : Nat) (acc : List (List Char)) (cur : List Char)
    (ws1 ws2 : List (List Char)) :
    runWords width acc cur (ws1 ++ ws2) =
      runWords width (runWords width acc cur ws1).1 (runWords width acc cur ws1).2 ws2 := by
  induction ws1 generalizing acc cur with
  | nil => simp [runWords]
  | cons w ws ih => simp only [List.cons_append, runWords]; exact ih _ _

/-! ### The greedy-output invariant of the wrap loop -/

/-- The first character of the list, when present, is not a space. -/
def headOk (l : List Char) : Prop := ∀ c, l.head? = some c → c ≠ ' '

/-- A well-formed wrapped segment: non-empty, within the width, and not
starting with a space. -/
def goodSeg (w : Nat) (s : List Char) : Prop := s ≠ [] ∧ s.length ≤ w ∧ headOk s

/-- Greedy maximality: each segment together with the first word of the next
segment would overflow the width (otherwise the greedy loop would have
joined them). -/
def chained (w : Nat) : List (List Char) → Prop
  | [] => True
  | [_] => True
  | a :: b :: rest => w < a.length + 1 + (firstWord b).length ∧ chained w (b :: rest)

/-- Relation between the emitted segments and the pending `current_line`:
whatever segment is emitted next cannot be joined onto the last emitted one. -/
def linkOk (w : Nat) (acc : List (List Char)) (cur : List Char) : Prop :=
  ∀ L, acc.getLast? = some L →
    (cur = [] → w ≤ L.length) ∧
      (cur ≠ [] → w < L.length + 1 + (firstWord cur).length)

/-- Full invariant of the `(lines, current_line)` state of the word loop. -/
def prodInv (w : Nat) (acc : List (List Char)) (cur : List Char) : Prop :=
  (∀ s ∈ acc, goodSeg w s) ∧ chained w acc ∧
    cur.length ≤ w ∧ headOk cur ∧ linkOk w acc cur

theorem headOk_of_noSpace {l : List Char} (h : ' ' ∉ l) : headOk l := by
  intro c hc
  cases l with
  | nil => simp at hc
  | cons a rest =>
    simp only [List.head?_cons, Option.some.injEq] at hc
    subst hc
    simp only [List.mem_cons, not_or] at h
    exact fun hcc => h.1 hcc.symm

theorem firstWord_ne_nil {l : List Char} (hne : l ≠ []) (hok : headOk l) :
    firstWord l ≠ [] := by
  cases l with
  | nil => exact absurd rfl hne
  | cons c rest =>
    have hc : c ≠ ' ' := hok c rfl
    have : firstWord (c :: rest) = c :: (rest.takeWhile (· ≠ ' ')) :=
      List.takeWhile_cons_of_pos (by simp [hc])
    simp [this]

theorem chained_append_singleton {w : Nat} {acc : List (List Char)} {s : List Char}
    (hch : chained w acc)
    (hlast : ∀ L, acc.getLast? = some L → w < L.length + 1 + (firstWord s).length) :
    chained w (acc ++ [s]) := by
  induction acc with
  | nil => simp [chained]
  | cons a rest ih =>
    cases rest with
    | nil =>
      refine ⟨hlast a rfl, trivial⟩
    | cons b rest' =>
      obtain ⟨h1, h2⟩ := hch
      exact ⟨h1, ih h2 (fun L hL => hlast L (by simpa using hL))⟩

theorem chained_append_all {w : Nat} {chunks : List (List Char)}
    (hfw : ∀ c ∈ chunks, w ≤ (firstWord c).length) :
    ∀ base, chained w base → chained w (base ++ chunks) := by
  induction chunks with
  | nil => intro base h; simpa using h
  | cons c cs ih =>
    intro base hb
    have h1 : chained w (base ++ [c]) :=
      chained_append_singleton hb (fun L _ => by
        have := hfw c (by simp)
        omega)
    have h2 := ih (fun x hx => hfw x (by simp [hx])) (base ++ [c]) h1
    simpa [List.append_assoc] using h2

theorem chunkFuel_chunks_subset : ∀ (fuel width : Nat) (word : List Char),
    ∀ c ∈ (chunkFuel fuel width word).1, ∀ x ∈ c, x ∈ word
  | 0, _, _ => by simp [chunkFuel]
  | fuel + 1, width, word => by
    simp only [chunkFuel]
    split
    · intro c hc x hx
      rcases List.mem_cons.mp hc with rfl | hc
      · exact List.take_subset _ _ hx
      · exact List.drop_subset _ _ (chunkFuel_chunks_subset fuel width _ c hc x hx)
    · simp

theorem chunkFuel_rem_subset : ∀ (fuel width : Nat) (word : List Char),
    ∀ x ∈ (chunkFuel fuel width word).2, x ∈ word
  | 0, _, _ => by simp [chunkFuel]
  | fuel + 1, width, word => by
    simp only [chunkFuel]
    split
    · intro x hx
      exact List.drop_subset _ _ (chunkFuel_rem_subset fuel width _ x hx)
    · simp

theorem chunkFuel_ne_nil {fuel width : Nat} {word : List Char}
    (hf : 0 < fuel) (h : width < word.length) :
    (chunkFuel fuel width word).1 ≠ [] := by
  cases fuel with
  | zero => omega
  | succ n => simp [chunkFuel, h]

theorem wrapStep_prodInv {w : Nat} {acc : List (List Char)} {cur word : List Char}
    (hw : 0 < w) (hword : ' ' ∉ word) (hinv : prodInv w acc cur) :
    prodInv w (wrapStep w acc cur word).1 (wrapStep w acc cur word).2 := by
  obtain ⟨hgood, hch, hlen, hhead, hlink⟩ := hinv
  unfold wrapStep
  split
  · next hhard =>
    have hwlen : 0 < word.length := by omega
    have hchlen : ∀ c ∈ (chunkWord w word).1, c.length = w :=
      chunkFuel_chunks_length _ _ _
    have hchsub : ∀ c ∈ (chunkWord w word).1, ' ' ∉ c := by
      intro c hc hx
      exact hword (chunkFuel_chunks_subset _ _ _ c hc ' ' hx)
    have hchfw : ∀ c ∈ (chunkWord w word).1, w ≤ (firstWord c).length := by
      intro c hc
      rw [firstWord_of_noSpace (hchsub c hc), hchlen c hc]
    have hchgood : ∀ c ∈ (chunkWord w word).1, goodSeg w c := by
      intro c hc
      refine ⟨?_, le_of_eq (hchlen c hc), headOk_of_noSpace (hchsub c hc)⟩
      intro hnil
      have hl := hchlen c hc
      rw [hnil] at hl
      simp at hl
      omega
    have hrlen : (chunkWord w word).2.length ≤ w :=
      chunkFuel_rem_length _ _ _ hw le_rfl
    have hrns : ' ' ∉ (chunkWord w word).2 := fun hx =>
      hword (chunkFuel_rem_subset _ _ _ ' ' hx)
    have hchne : (chunkWord w word).1 ≠ [] := chunkFuel_ne_nil hwlen hhard
    have hbase : ∀ base, (∀ s ∈ base, goodSeg w s) → chained w base →
        prodInv w (base ++ (chunkWord w word).1) (chunkWord w word).2 := by
      intro base hbgood hbch
      refine ⟨?_, chained_append_all hchfw base hbch, hrlen,
        headOk_of_noSpace hrns, ?_⟩
      · intro s hs
        rcases List.mem_append.mp hs with hs | hs
        · exact hbgood s hs
        · exact hchgood s hs
      · intro L hL
        rw [List.getLast?_append_of_ne_nil _ hchne] at hL
        have hLlen := hchlen L (List.mem_of_getLast?_eq_some hL)
        exact ⟨fun _ => by omega, fun _ => by omega⟩
    by_cases hcur : cur = []
    · rw [if_pos hcur]
      exact hbase acc hgood hch
    · rw [if_neg hcur]
      refine hbase (acc ++ [cur]) ?_ ?_
      · intro s hs
        rcases List.mem_append.mp hs with hs | hs
        · exact hgood s hs
        · simp at hs; subst hs; exact ⟨hcur, hlen, hhead⟩
      · exact chained_append_singleton hch (fun L hL => (hlink L hL).2 hcur)
  · next hnothard =>
    have hwordlen : word.length ≤ w := Nat.not_lt.mp hnothard
    split
    · next hcur =>
      refine ⟨hgood, hch, hwordlen, headOk_of_noSpace hword, ?_⟩
      intro L hL
      have hwL : w ≤ L.length := (hlink L hL).1 hcur
      exact ⟨fun _ => hwL, fun _ => by omega⟩
    · next hcur =>
      split
      · next hfit =>
        refine ⟨hgood, hch, ?_, ?_, ?_⟩
        · simp only [List.length_append, List.length_cons]; omega
        · intro c hc
          cases cur with
          | nil => exact absurd rfl hcur
          | cons a rest =>
            simp only [List.cons_append, List.head?_cons, Option.some.injEq] at hc
            rw [← hc]
            exact hhead a rfl
        · intro L hL
          refine ⟨fun habs => ?_, fun _ => ?_⟩
          · cases cur with
            | nil => exact absurd rfl hcur
            | cons a rest => simp at habs
          · rw [firstWord_append_space]
            exact (hlink L hL).2 hcur
      · next hnofit =>
        refine ⟨?_, chained_append_singleton hch (fun L hL => (hlink L hL).2 hcur),
          hwordlen, headOk_of_noSpace hword, ?_⟩
        · intro s hs
          rcases List.mem_append.mp hs with hs | hs
          · exact hgood s hs
          · simp at hs; subst hs; exact ⟨hcur, hlen, hhead⟩
        · intro L hL
          rw [List.getLast?_concat] at hL
          have hLcur : L = cur := by injection hL.symm
          subst hLcur
          refine ⟨fun hwnil => ?_, fun hwne => ?_⟩
          · replace hwnil : word = [] := hwnil
            rw [hwnil] at hnofit
            simp at hnofit
            omega
          · show w < L.length + 1 + (firstWord word).length
            rw [firstWord_of_noSpace hword]
            omega

theorem runWords_prodInv : ∀ (ws : List (List Char)) (w : Nat)
    (acc : List (List Char)) (cur : List Char),
    0 < w → (∀ u ∈ ws, ' ' ∉ u) → prodInv w acc cur →
    prodInv w (runWords w acc cur ws).1 (runWords w acc cur ws).2
  | [], _, _, _ => fun _ _ h => h
  | word :: rest, w, acc, cur => by
    intro hw hws hinv
    exact runWords_prodInv rest w _ _ hw (fun u hu => hws u (by simp [hu]))
      (wrapStep_prodInv hw (hws word (by simp)) hinv)

theorem finishWrap_good {w : Nat} {st : List (List Char) × List Char}
    (hinv : prodInv w st.1 st.2) :
    (∀ s ∈ finishWrap st, goodSeg w s) ∧ chained w (finishWrap st) := by
  obtain ⟨hgood, hch, hlen, hhead, hlink⟩ := hinv
  unfold finishWrap
  split
  · exact ⟨hgood, hch⟩
  · next hne =>
    refine ⟨?_, chained_append_singleton hch (fun L hL => (hlink L hL).2 hne)⟩
    intro s hs
    rcases List.mem_append.mp hs with hs | hs
    · exact hgood s hs
    · simp at hs; subst hs; exact ⟨hne, hlen, hhead⟩

theorem prodInv_init {w : Nat} : prodInv w [] [] := by
  refine ⟨by simp, trivial, by simp, ?_, ?_⟩
  · intro c h; simp at h
  · intro L hL; simp at hL

theorem wrapOutput_good {w : Nat} (hw : 0 < w) (text : List Char) :
    (∀ s ∈ wrapOutput w text, goodSeg w s) ∧ chained w (wrapOutput w text) := by
  unfold wrapOutput
  exact finishWrap_good
    (runWords_prodInv _ _ _ _ hw (splitOnSpace_noSpace text) prodInv_init)

/-! ### Re-wrapping a well-formed segment list reproduces it (claim C3) -/

theorem runWords_within {w : Nat} : ∀ (us : List (List Char)) (acc : List (List Char))
    (p : List Char), p ≠ [] → (joinSpace (p :: us)).length ≤ w →
    runWords w acc p us = (acc, joinSpace (p :: us))
  | [], acc, p => by
    intro hp hlen
    simp [runWords, joinSpace]
  | u :: us', acc, p => by
    intro hp hlen
    have hj : joinSpace (p :: u :: us') = p ++ ' ' :: joinSpace (u :: us') := rfl
    have hu : u.length ≤ (joinSpace (u :: us')).length :=
      word_length_le_joinSpace (by simp)
    rw [hj, List.length_append, List.length_cons] at hlen
    have hstep : wrapStep w acc p u = (acc, p ++ ' ' :: u) := by
      unfold wrapStep
      rw [if_neg (by omega), if_neg hp, if_pos (by omega)]
    simp only [runWords, hstep]
    have hrec := @runWords_within w us' acc (p ++ ' ' :: u) (by simp)
      (by rw [joinSpace_cons_append, List.length_append, List.length_cons]; omega)
    rw [hrec, joinSpace_cons_append]
    rw [hj]

theorem runWords_chain {w : Nat} : ∀ (segs acc : List (List Char))
    (p : List Char), p ≠ [] → (∀ s ∈ segs, goodSeg w s) → chained w (p :: segs) →
    finishWrap (runWords w acc p ((segs.map splitOnSpace).flatten)) = acc ++ p :: segs
  | [], acc, p => by
    intro hp _ _
    simp [runWords, finishWrap, hp]
  | s :: rest, acc, p => by
    intro hp hgood hch
    have hch' : w < p.length + 1 + (firstWord s).length ∧ chained w (s :: rest) := hch
    obtain ⟨hsne, hslen, hshead⟩ := hgood s (by simp)
    rcases hsp : splitOnSpace s with _ | ⟨v, us⟩
    · exact absurd hsp (splitOnSpace_ne_nil s)
    · have hv : v = firstWord s := by
        have hh := splitOnSpace_head s
        rw [hsp] at hh
        simpa using hh
      have hvne : v ≠ [] := by rw [hv]; exact firstWord_ne_nil hsne hshead
      have hjs : joinSpace (v :: us) = s := by
        have hh := joinSpace_splitOnSpace s
        rw [hsp] at hh
        exact hh
      have hvlen : v.length ≤ s.length := by
        rw [← hjs]; exact word_length_le_joinSpace (by simp)
      have hflat : ((s :: rest).map splitOnSpace).flatten
          = v :: (us ++ ((rest.map splitOnSpace).flatten)) := by
        simp [hsp]
      rw [hflat]
      have hfit : ¬(p.length + 1 + v.length ≤ w) := by rw [hv]; omega
      have hstep : wrapStep w acc p v = (acc ++ [p], v) := by
        unfold wrapStep
        rw [if_neg (by omega), if_neg hp, if_neg hfit]
      simp only [runWords, hstep]
      rw [runWords_append]
      rw [runWords_within us (acc ++ [p]) v hvne (by rw [hjs]; exact hslen), hjs]
      rw [runWords_chain rest (acc ++ [p]) s hsne
        (fun x hx => hgood x (by simp [hx])) hch'.2]
      simp

theorem wrapOutput_nil {w : Nat} : wrapOutput w [] = [] := by
  simp [wrapOutput, splitOnSpace, runWords, wrapStep, finishWrap]

theorem wrapOutput_join {w : Nat} (hw : 0 < w) : ∀ {segs : List (List Char)},
    (∀ s ∈ segs, goodSeg w s) → chained w segs → segs ≠ [] →
    wrapOutput w (joinSpace segs) = segs := by
  intro segs hgood hch hne
  rcases segs with _ | ⟨s1, rest⟩
  · exact absurd rfl hne
  · unfold wrapOutput
    rw [splitOnSpace_joinSpace _ (by simp)]
    obtain ⟨hs1ne, hs1len, hs1head⟩ := hgood s1 (by simp)
    rcases hsp : splitOnSpace s1 with _ | ⟨v, us⟩
    · exact absurd hsp (splitOnSpace_ne_nil s1)
    · have hv : v = firstWord s1 := by
        have hh := splitOnSpace_head s1
        rw [hsp] at hh
        simpa using hh
      have hvne : v ≠ [] := by rw [hv]; exact firstWord_ne_nil hs1ne hs1head
      have hjs : joinSpace (v :: us) = s1 := by
        have hh := joinSpace_splitOnSpace s1
        rw [hsp] at hh
        exact hh
      have hvlen : v.length ≤ s1.length := by
        rw [← hjs]; exact word_length_le_joinSpace (by simp)
      have hflat : ((s1 :: rest).map splitOnSpace).flatten
          = v :: (us ++ ((rest.map splitOnSpace).flatten)) := by
        simp [hsp]
      rw [hflat]
      have hstep : wrapStep w [] [] v = ([], v) := by
        unfold wrapStep
        rw [if_neg (by omega), if_pos rfl]
      simp only [runWords, hstep]
      rw [runWords_append]
      rw [runWords_within us [] v hvne (by rw [hjs]; exact hs1len), hjs]
      rw [runWords_chain rest [] s1 hs1ne (fun x hx => hgood x (by simp [hx])) hch]
      simp

/-- C3: wrapping is idempotent — joining the wrapped segments of a line with
single spaces and wrapping the result again at the same positive width yields
exactly the same segments. -/
theorem wrap_text_idempotent (text : List Char) (width : Int) (hw : 0 < width) :
    wrap_text (joinSpace (wrap_text text width)) width = wrap_text text width := by
  have hw' : 0 < width.toNat := by omega
  by_cases hO : wrapOutput width.toNat text = []
  · have h1 : wrap_text text width = [[]] := by
      unfold wrap_text
      rw [if_neg (by omega), if_pos hO]
    rw [h1]
    have hjoin : joinSpace [([] : List Char)] = [] := rfl
    rw [hjoin]
    unfold wrap_text
    rw [if_neg (by omega), if_pos wrapOutput_nil]
  · have h1 : wrap_text text width = wrapOutput width.toNat text := by
      unfold wrap_text
      rw [if_neg (by omega), if_neg hO]
    rw [h1]
    have hgc := wrapOutput_good hw' text
    have h2 : wrapOutput width.toNat (joinSpace (wrapOutput width.toNat text))
        = wrapOutput width.toNat text := wrapOutput_join hw' hgc.1 hgc.2 hO
    unfold wrap_text
    rw [if_neg (by omega), h2, if_neg hO]

/-- Witness for C3 at a concrete line containing an over-long word. -/
theorem wrap_text_idempotent_witness :
    wrap_text (joinSpace (wrap_text "supercalifragilistic expialidocious".toList 10)) 10
      = wrap_text "supercalifragilistic expialidocious".toList 10 :=
  wrap_text_idempotent "supercalifragilistic expialidocious".toList 10 (by omega)

/-! ### Cursor display position (claim C1) -/

/-- The first loop of `get_cursor_display_pos`: total display rows taken by
the logical lines before the cursor's line (an empty line counts one row,
otherwise the number of wrapped segments). -/
def baseDisplayRow (lines : List (List Char)) (cursorLine : Nat) (w : Int) : Nat :=
  ((lines.take cursorLine).map
    (fun l => if l = [] then 1 else (wrap_text l w).length)).sum

/-- The `for i, wline in enumerate(wrapped)` loop of
`get_cursor_display_pos`: find the wrapped segment containing the cursor
column, accumulating `len(wline) + 1` consumed characters per passed
segment (the `+1` accounts for the space replaced by the join). -/
def findSegPos (cursorCol : Nat) : Nat → Nat → List (List Char) → Option (Nat × Nat)
  | _, _, [] => none
  | chars, i, wl :: rest =>
    if cursorCol ≤ chars + wl.length then some (i, cursorCol - chars)
    else findSegPos cursorCol (chars + wl.length + 1) (i + 1) rest

/-- `get_cursor_display_pos` from `journal.py` (display row and column of
the logical cursor), with the enclosing editor state passed explicitly.
Rows are modelled as `Nat`; the fall-through `len(wrapped) - 1` uses
truncated subtraction, which agrees with the source whenever the wrapped
list is non-empty (always the case for a positive width). -/
def get_cursor_display_pos (lines : List (List Char)) (cursorLine cursorCol : Nat)
    (w : Int) : Nat × Nat :=
  if lines.getD cursorLine [] = [] then (baseDisplayRow lines cursorLine w, cursorCol)
  else
    match findSegPos cursorCol 0 0 (wrap_text (lines.getD cursorLine []) w) with
    | some ic => (baseDisplayRow lines cursorLine w + ic.1, ic.2)
    | none =>
      (baseDisplayRow lines cursorLine w +
          (wrap_text (lines.getD cursorLine []) w).length - 1,
        ((wrap_text (lines.getD cursorLine []) w).getLastD []).length)

theorem findSegPos_boundary : ∀ (i : Nat) (segs : List (List Char)) (chars idx col : Nat),
    i + 1 < segs.length →
    col = chars + ((segs.take (i + 1)).map List.length).sum + (i + 1) →
    findSegPos col chars idx segs = some (idx + (i + 1), 0)
  | 0, segs, chars, idx, col => by
    intro h hcol
    rcases segs with _ | ⟨s, rest⟩
    · simp at h
    · rcases rest with _ | ⟨t, rest'⟩
      · simp at h
      · simp only [List.take_succ_cons, List.take_zero, List.map_cons, List.map_nil,
          List.sum_cons, List.sum_nil] at hcol
        unfold findSegPos
        rw [if_neg (by omega)]
        unfold findSegPos
        rw [if_pos (by omega)]
        simp only [Option.some.injEq, Prod.mk.injEq, true_and, and_true]
        omega
  | i + 1, segs, chars, idx, col => by
    intro h hcol
    rcases segs with _ | ⟨s, rest⟩
    · simp at h
    · simp only [List.take_succ_cons, List.map_cons, List.sum_cons] at hcol
      unfold findSegPos
      rw [if_neg (by omega)]
      have hrec := findSegPos_boundary i rest (chars + s.length + 1) (idx + 1) col
        (by simp at h; omega) (by omega)
      rw [hrec]
      simp only [Option.some.injEq, Prod.mk.injEq, true_and, and_true]
      omega

/-- C1: a cursor column lying exactly at a wrapped-segment boundary of its
line (the cumulative consumed-character count of the first `i+1` segments,
each join costing one extra character) is mapped to display column `0` of
the following segment's row — not to the end of the previous segment —
whenever that boundary is an internal one and the column is a valid cursor
column other than the final column of the line. -/
theorem cursor_at_boundary_maps_to_next_segment_start
    (lines : List (List Char)) (cursorLine : Nat) (w : Int) (i B : Nat)
    (hline : cursorLine < lines.length) (hw : 0 < w)
    (hseg : i + 1 < (wrap_text (lines.getD cursorLine []) w).length)
    (hB : B = (((wrap_text (lines.getD cursorLine []) w).take (i + 1)).map
        List.length).sum + (i + 1))
    (hvalid : B ≤ (lines.getD cursorLine []).length)
    (hnotfinal : B ≠ (lines.getD cursorLine []).length) :
    get_cursor_display_pos lines cursorLine B w
      = (baseDisplayRow lines cursorLine w + (i + 1), 0) := by
  have hne : lines.getD cursorLine [] ≠ [] := by
    intro hnil
    rw [hnil] at hvalid
    simp at hvalid
    omega
  unfold get_cursor_display_pos
  rw [if_neg hne]
  rw [findSegPos_boundary i _ 0 0 B hseg (by omega)]
  simp

/-- Witness for C1: line `"hello world"` at width 5 wraps to
`["hello", "world"]`; the boundary column 6 maps to `(1, 0)`. -/
theorem cursor_at_boundary_witness :
    get_cursor_display_pos ["hello world".toList] 0 6 5 = (1, 0) := by
  have h := cursor_at_boundary_maps_to_next_segment_start
    ["hello world".toList] 0 5 0 6 (by decide) (by decide) (by decide) (by decide)
    (by decide) (by decide)
  simpa [baseDisplayRow] using h

/-! ### The multiline editor key loop (claims C4, C6, C8) -/

/-- The editor buffer state of `get_multiline_input`: the logical lines and
the logical cursor `(cursor_line, cursor_col)`. -/
structure EditorState where
  lines : List (List Char)
  cursorLine : Nat
  cursorCol : Nat
deriving DecidableEq

/-- The cursor invariant of the editor: the cursor line exists and the
cursor column is at most the length of that line. -/
def EditorInv (st : EditorState) : Prop :=
  st.cursorLine < st.lines.length ∧
    st.cursorCol ≤ (st.lines.getD st.cursorLine []).length

instance (st : EditorState) : Decidable (EditorInv st) := by
  unfold EditorInv
  infer_instance

/-- Backspace (`curses.KEY_BACKSPACE`, 127, 8): delete the character before
the cursor, or join with the previous line.  Out-of-range list accesses
surface as `none` (they cannot occur under `EditorInv`). -/
def backspaceKey (st : EditorState) : Option EditorState :=
  if 0 < st.cursorCol then
    (st.lines[st.cursorLine]?).map (fun line =>
      ⟨st.lines.set st.cursorLine
          (line.take (st.cursorCol - 1) ++ line.drop st.cursorCol),
        st.cursorLine, st.cursorCol - 1⟩)
  else if 0 < st.cursorLine then
    (st.lines[st.cursorLine - 1]?).bind (fun prev =>
      (st.lines[st.cursorLine]?).map (fun cur =>
        ⟨(st.lines.set (st.cursorLine - 1) (prev ++ cur)).eraseIdx st.cursorLine,
          st.cursorLine - 1, prev.length⟩))
  else some st

/-- Delete key (`curses.KEY_DC`, 330): delete the character at the cursor,
or join with the next line. -/
def deleteKey (st : EditorState) : Option EditorState :=
  (st.lines[st.cursorLine]?).bind (fun line =>
    if st.cursorCol < line.length then
      some ⟨st.lines.set st.cursorLine
          (line.take st.cursorCol ++ line.drop (st.cursorCol + 1)),
        st.cursorLine, st.cursorCol⟩
    else if st.cursorLine < st.lines.length - 1 then
      (st.lines[st.cursorLine + 1]?).map (fun next =>
        ⟨(st.lines.set st.cursorLine (line ++ next)).eraseIdx (st.cursorLine + 1),
          st.cursorLine, st.cursorCol⟩)
    else some st)

/-- Enter (`curses.KEY_ENTER`, 10, 13): split the current line at the
cursor and move to the start of the new line. -/
def enterKey (st : EditorState) : Option EditorState :=
  (st.lines[st.cursorLine]?).map (fun line =>
    ⟨(st.lines.set st.cursorLine (line.take st.cursorCol)).insertIdx
        (st.cursorLine + 1) (line.drop st.cursorCol),
      st.cursorLine + 1, 0⟩)

/-- Left arrow (`curses.KEY_LEFT`). -/
def leftKey (st : EditorState) : Option EditorState :=
  if 0 < st.cursorCol then some ⟨st.lines, st.cursorLine, st.cursorCol - 1⟩
  else if 0 < st.cursorLine then
    (st.lines[st.cursorLine - 1]?).map (fun prev =>
      ⟨st.lines, st.cursorLine - 1, prev.length⟩)
  else some st

/-- Right arrow (`curses.KEY_RIGHT`). -/
def rightKey (st : EditorState) : Option EditorState :=
  (st.lines[st.cursorLine]?).bind (fun line =>
    if st.cursorCol < line.length then
      some ⟨st.lines, st.cursorLine, st.cursorCol + 1⟩
    else if st.cursorLine < st.lines.length - 1 then
      some ⟨st.lines, st.cursorLine + 1, 0⟩
    else some st)

/-- Up arrow (`curses.KEY_UP`): move up, clamping the column. -/
def upKey (st : EditorState) : Option EditorState :=
  if 0 < st.cursorLine then
    (st.lines[st.cursorLine - 1]?).map (fun prev =>
      ⟨st.lines, st.cursorLine - 1, min st.cursorCol prev.length⟩)
  else some st

/-- Down arrow (`curses.KEY_DOWN`): move down, clamping the column. -/
def downKey (st : EditorState) : Option EditorState :=
  if st.cursorLine < st.lines.length - 1 then
    (st.lines[st.cursorLine + 1]?).map (fun next =>
      ⟨st.lines, st.cursorLine + 1, min st.cursorCol next.length⟩)
  else some st

/-- Home (`curses.KEY_HOME`). -/
def homeKey (st : EditorState) : Option EditorState :=
  some ⟨st.lines, st.cursorLine, 0⟩

/-- End (`curses.KEY_END`). -/
def endKey (st : EditorState) : Option EditorState :=
  (st.lines[st.cursorLine]?).map (fun line =>
    ⟨st.lines, st.cursorLine, line.length⟩)

/-- Splice text into the current line at the cursor: used by the printable
branch (one character) and the tab branch (four spaces). -/
def insertText (t : List Char) (st : EditorState) : Option EditorState :=
  (st.lines[st.cursorLine]?).map (fun line =>
    ⟨st.lines.set st.cursorLine
        (line.take st.cursorCol ++ t ++ line.drop st.cursorCol),
      st.cursorLine, st.cursorCol + t.length⟩)

/-- The key dispatch chain of `get_multiline_input`.  Escape (27) and
Ctrl+C (3) terminate the session without touching the buffer, so for the
buffer state they act as the identity.  Key codes are the `curses`
constants: `KEY_BACKSPACE` 263, `KEY_DC` 330, `KEY_ENTER` 343, `KEY_LEFT`
260, `KEY_RIGHT` 261, `KEY_UP` 259, `KEY_DOWN` 258, `KEY_HOME` 262,
`KEY_END` 360. -/
def handleKey (key : Nat) (st : EditorState) : Option EditorState :=
  if key = 27 ∨ key = 3 then some st
  else if key = 263 ∨ key = 127 ∨ key = 8 then backspaceKey st
  else if key = 330 then deleteKey st
  else if key = 343 ∨ key = 10 ∨ key = 13 then enterKey st
  else if key = 260 then leftKey st
  else if key = 261 then rightKey st
  else if key = 259 then upKey st
  else if key = 258 then downKey st
  else if key = 262 then homeKey st
  else if key = 360 then endKey st
  else if 32 ≤ key ∧ key ≤ 126 then insertText [Char.ofNat key] st
  else if key = 9 then insertText "    ".toList st
  else some st

/-! Auxiliary list lemmas for the editor proofs. -/

theorem getElem?_eraseIdx_of_lt {α : Type} {l : List α} {i j : Nat} (h : j < i) :
    (l.eraseIdx i)[j]? = l[j]? := by
  rw [List.eraseIdx_eq_take_drop_succ]
  by_cases hj : j < l.length
  · have hjt : j < (l.take i).length := by
      simp [List.length_take]
      omega
    rw [List.getElem?_append_left hjt]
    exact List.getElem?_take_of_lt h
  · have h1 : l[j]? = none := List.getElem?_eq_none (by omega)
    have h2 : (l.take i ++ l.drop (i + 1))[j]? = none := by
      refine List.getElem?_eq_none ?_
      simp [List.length_take, List.length_drop]
      omega
    rw [h1, h2]

theorem set_insertIdx_of_lt {α : Type} :
    ∀ (l : List α) (n k : Nat) (a v : α), k < n →
      (l.insertIdx n a).set k v = (l.set k v).insertIdx n a
  | _, 0, k, _, _ => by omega
  | [], n + 1, k, a, v => by intro _; simp [List.insertIdx_succ_nil]
  | c :: t, n + 1, 0, a, v => by
    intro _
    simp [List.insertIdx_succ_cons]
  | c :: t, n + 1, k + 1, a, v => by
    intro hk
    simp only [List.insertIdx_succ_cons, List.set_cons_succ]
    rw [set_insertIdx_of_lt t n k a v (by omega)]

theorem set_getD_self {α : Type} :
    ∀ (l : List α) (i : Nat) (d : α), i < l.length → l.set i (l.getD i d) = l
  | [], i, d => by simp
  | c :: t, 0, d => by simp
  | c :: t, i + 1, d => by
    intro h
    simp only [List.set_cons_succ, List.getD_cons_succ]
    rw [set_getD_self t i d (by simpa using h)]

theorem backspaceKey_inv {st : EditorState} (h : EditorInv st) :
    ∃ st', backspaceKey st = some st' ∧ EditorInv st' := by
  obtain ⟨lines, li, col⟩ := st
  obtain ⟨hli, hcol⟩ := h
  simp only at hli hcol
  set L := lines.getD li [] with hL
  have hget : lines[li]? = some L := by
    rw [hL]; simp [List.getElem?_eq_getElem hli]
  unfold backspaceKey
  simp only
  by_cases hc : 0 < col
  · rw [if_pos hc, hget]
    simp only [Option.map_some']
    refine ⟨_, rfl, by simpa using hli, ?_⟩
    show col - 1 ≤ ((lines.set li (L.take (col - 1) ++ L.drop col)).getD li []).length
    rw [List.getD_eq_getElem?_getD, List.getElem?_set_self (by simpa using hli)]
    simp [List.length_take, List.length_drop]
    omega
  · rw [if_neg hc]
    by_cases hl : 0 < li
    · rw [if_pos hl]
      set P := lines.getD (li - 1) [] with hP
      have hprev : lines[li - 1]? = some P := by
        rw [hP]; simp [List.getElem?_eq_getElem (show li - 1 < lines.length by omega)]
      rw [hprev, hget]
      simp only [Option.some_bind, Option.map_some']
      have hlen : ((lines.set (li - 1) (P ++ L)).eraseIdx li).length
          = lines.length - 1 := by
        rw [List.length_eraseIdx]
        simp [hli]
      refine ⟨_, rfl, ?_, ?_⟩
      · show li - 1 < ((lines.set (li - 1) (P ++ L)).eraseIdx li).length
        rw [hlen]
        omega
      · show P.length ≤ (((lines.set (li - 1) (P ++ L)).eraseIdx li).getD (li - 1) []).length
        rw [List.getD_eq_getElem?_getD, getElem?_eraseIdx_of_lt (by omega),
          List.getElem?_set_self (by omega)]
        simp
    · rw [if_neg hl]
      exact ⟨_, rfl, hli, hcol⟩

theorem deleteKey_inv {st : EditorState} (h : EditorInv st) :
    ∃ st', deleteKey st = some st' ∧ EditorInv st' := by
  obtain ⟨lines, li, col⟩ := st
  obtain ⟨hli, hcol⟩ := h
  simp only at hli hcol
  set L := lines.getD li [] with hL
  have hget : lines[li]? = some L := by
    rw [hL]; simp [List.getElem?_eq_getElem hli]
  unfold deleteKey
  simp only
  rw [hget]
  simp only [Option.some_bind]
  by_cases hc : col < L.length
  · rw [if_pos hc]
    refine ⟨_, rfl, by simpa using hli, ?_⟩
    show col ≤ ((lines.set li (L.take col ++ L.drop (col + 1))).getD li []).length
    rw [List.getD_eq_getElem?_getD, List.getElem?_set_self (by simpa using hli)]
    simp [List.length_take, List.length_drop]
    omega
  · rw [if_neg hc]
    by_cases hn : li < lines.length - 1
    · rw [if_pos hn]
      set N := lines.getD (li + 1) [] with hN
      have hnext : lines[li + 1]? = some N := by
        rw [hN]; simp [List.getElem?_eq_getElem (show li + 1 < lines.length by omega)]
      rw [hnext]
      simp only [Option.map_some']
      have hlen : ((lines.set li (L ++ N)).eraseIdx (li + 1)).length
          = lines.length - 1 := by
        rw [List.length_eraseIdx]
        simp only [List.length_set]
        rw [if_pos (by omega)]
      refine ⟨_, rfl, ?_, ?_⟩
      · show li < ((lines.set li (L ++ N)).eraseIdx (li + 1)).length
        rw [hlen]
        omega
      · show col ≤ (((lines.set li (L ++ N)).eraseIdx (li + 1)).getD li []).length
        rw [List.getD_eq_getElem?_getD, getElem?_eraseIdx_of_lt (by omega),
          List.getElem?_set_self (by simpa using hli)]
        simp only [Option.getD_some, List.length_append]
        omega
    · rw [if_neg hn]
      exact ⟨_, rfl, hli, hcol⟩

theorem enterKey_inv {st : EditorState} (h : EditorInv st) :
    ∃ st', enterKey st = some st' ∧ EditorInv st' := by
  obtain ⟨lines, li, col⟩ := st
  obtain ⟨hli, hcol⟩ := h
  simp only at hli hcol
  set L := lines.getD li [] with hL
  have hget : lines[li]? = some L := by
    rw [hL]; simp [List.getElem?_eq_getElem hli]
  unfold enterKey
  simp only
  rw [hget]
  simp only [Option.map_some']
  have hlen : ((lines.set li (L.take col)).insertIdx (li + 1) (L.drop col)).length
      = lines.length + 1 := by
    rw [List.length_insertIdx _ _ (by simp; omega)]
    simp
  refine ⟨_, rfl, ?_, ?_⟩
  · show li + 1 < ((lines.set li (L.take col)).insertIdx (li + 1) (L.drop col)).length
    rw [hlen]
    omega
  · exact Nat.zero_le _

theorem leftKey_inv {st : EditorState} (h : EditorInv st) :
    ∃ st', leftKey st = some st' ∧ EditorInv st' := by
  obtain ⟨lines, li, col⟩ := st
  obtain ⟨hli, hcol⟩ := h
  simp only at hli hcol
  unfold leftKey
  simp only
  by_cases hc : 0 < col
  · rw [if_pos hc]
    exact ⟨_, rfl, hli, by simp only [EditorInv]; omega⟩
  · rw [if_neg hc]
    by_cases hl : 0 < li
    · rw [if_pos hl]
      have hprev : lines[li - 1]? = some (lines.getD (li - 1) []) := by
        simp [List.getElem?_eq_getElem (show li - 1 < lines.length by omega)]
      rw [hprev]
      simp only [Option.map_some']
      exact ⟨_, rfl, by show li - 1 < lines.length; omega, le_rfl⟩
    · rw [if_neg hl]
      exact ⟨_, rfl, hli, hcol⟩

theorem rightKey_inv {st : EditorState} (h : EditorInv st) :
    ∃ st', rightKey st = some st' ∧ EditorInv st' := by
  obtain ⟨lines, li, col⟩ := st
  obtain ⟨hli, hcol⟩ := h
  simp only at hli hcol
  set L := lines.getD li [] with hL
  have hget : lines[li]? = some L := by
    rw [hL]; simp [List.getElem?_eq_getElem hli]
  unfold rightKey
  simp only
  rw [hget]
  simp only [Option.some_bind]
  by_cases hc : col < L.length
  · rw [if_pos hc]
    exact ⟨_, rfl, hli, by show col + 1 ≤ L.length; omega⟩
  · rw [if_neg hc]
    by_cases hn : li < lines.length - 1
    · rw [if_pos hn]
      exact ⟨_, rfl, by show li + 1 < lines.length; omega, Nat.zero_le _⟩
    · rw [if_neg hn]
      exact ⟨_, rfl, hli, hcol⟩

theorem upKey_inv {st : EditorState} (h : EditorInv st) :
    ∃ st', upKey st = some st' ∧ EditorInv st' := by
  obtain ⟨lines, li, col⟩ := st
  obtain ⟨hli, hcol⟩ := h
  simp only at hli hcol
  unfold upKey
  simp only
  by_cases hl : 0 < li
  · rw [if_pos hl]
    have hprev : lines[li - 1]? = some (lines.getD (li - 1) []) := by
      simp [List.getElem?_eq_getElem (show li - 1 < lines.length by omega)]
    rw [hprev]
    simp only [Option.map_some']
    exact ⟨_, rfl, by show li - 1 < lines.length; omega, Nat.min_le_right _ _⟩
  · rw [if_neg hl]
    exact ⟨_, rfl, hli, hcol⟩

theorem downKey_inv {st : EditorState} (h : EditorInv st) :
    ∃ st', downKey st = some st' ∧ EditorInv st' := by
  obtain ⟨lines, li, col⟩ := st
  obtain ⟨hli, hcol⟩ := h
  simp only at hli hcol
  unfold downKey
  simp only
  by_cases hn : li < lines.length - 1
  · rw [if_pos hn]
    have hnext : lines[li + 1]? = some (lines.getD (li + 1) []) := by
      simp [List.getElem?_eq_getElem (show li + 1 < lines.length by omega)]
    rw [hnext]
    simp only [Option.map_some']
    exact ⟨_, rfl, by show li + 1 < lines.length; omega, Nat.min_le_right _ _⟩
  · rw [if_neg hn]
    exact ⟨_, rfl, hli, hcol⟩

theorem homeKey_inv {st : EditorState} (h : EditorInv st) :
    ∃ st', homeKey st = some st' ∧ EditorInv st' :=
  ⟨_, rfl, h.1, Nat.zero_le _⟩

theorem endKey_inv {st : EditorState} (h : EditorInv st) :
    ∃ st', endKey st = some st' ∧ EditorInv st' := by
  obtain ⟨lines, li, col⟩ := st
  obtain ⟨hli, hcol⟩ := h
  simp only at hli hcol
  set L := lines.getD li [] with hL
  have hget : lines[li]? = some L := by
    rw [hL]; simp [List.getElem?_eq_getElem hli]
  unfold endKey
  simp only
  rw [hget]
  simp only [Option.map_some']
  exact ⟨_, rfl, hli, le_rfl⟩

theorem insertText_inv {t : List Char} {st : EditorState} (h : EditorInv st) :
    ∃ st', insertText t st = some st' ∧ EditorInv st' := by
  obtain ⟨lines, li, col⟩ := st
  obtain ⟨hli, hcol⟩ := h
  simp only at hli hcol
  set L := lines.getD li [] with hL
  have hget : lines[li]? = some L := by
    rw [hL]; simp [List.getElem?_eq_getElem hli]
  unfold insertText
  simp only
  rw [hget]
  simp only [Option.map_some']
  refine ⟨_, rfl, by simpa using hli, ?_⟩
  show col + t.length ≤ ((lines.set li (L.take col ++ t ++ L.drop col)).getD li []).length
  rw [List.getD_eq_getElem?_getD, List.getElem?_set_self (by simpa using hli)]
  simp [List.length_take, List.length_drop]
  omega

/-- C4: the cursor invariant (`0 ≤ line_index < len(lines)` and
`0 ≤ column ≤ len(lines[line_index])`) is preserved by every key transition
of the editor loop, and no transition fails (every list access is in
bounds). -/
theorem editor_invariant_preserved (key : Nat) (st : EditorState) (h : EditorInv st) :
    ∃ st', handleKey key st = some st' ∧ EditorInv st' := by
  unfold handleKey
  by_cases h1 : key = 27 ∨ key = 3
  · rw [if_pos h1]; exact ⟨st, rfl, h⟩
  rw [if_neg h1]
  by_cases h2 : key = 263 ∨ key = 127 ∨ key = 8
  · rw [if_pos h2]; exact backspaceKey_inv h
  rw [if_neg h2]
  by_cases h3 : key = 330
  · rw [if_pos h3]; exact deleteKey_inv h
  rw [if_neg h3]
  by_cases h4 : key = 343 ∨ key = 10 ∨ key = 13
  · rw [if_pos h4]; exact enterKey_inv h
  rw [if_neg h4]
  by_cases h5 : key = 260
  · rw [if_pos h5]; exact leftKey_inv h
  rw [if_neg h5]
  by_cases h6 : key = 261
  · rw [if_pos h6]; exact rightKey_inv h
  rw [if_neg h6]
  by_cases h7 : key = 259
  · rw [if_pos h7]; exact upKey_inv h
  rw [if_neg h7]
  by_cases h8 : key = 258
  · rw [if_pos h8]; exact downKey_inv h
  rw [if_neg h8]
  by_cases h9 : key = 262
  · rw [if_pos h9]; exact homeKey_inv h
  rw [if_neg h9]
  by_cases h10 : key = 360
  · rw [if_pos h10]; exact endKey_inv h
  rw [if_neg h10]
  by_cases h11 : 32 ≤ key ∧ key ≤ 126
  · rw [if_pos h11]; exact insertText_inv h
  rw [if_neg h11]
  by_cases h12 : key = 9
  · rw [if_pos h12]; exact insertText_inv h
  rw [if_neg h12]
  exact ⟨st, rfl, h⟩

/-- Witness for C4: backspace at the end of a one-character line. -/
theorem editor_invariant_preserved_witness :
    ∃ st', handleKey 263 ⟨["a".toList], 0, 1⟩ = some st' ∧ EditorInv st' :=
  editor_invariant_preserved 263 ⟨["a".toList], 0, 1⟩ (by decide)

/-- C6: pressing Enter and then immediately Backspace (from the start of
the newly created line) restores exactly the pre-Enter lines and cursor
position, for every invariant-respecting editor state. -/
theorem enter_backspace_roundtrip (st : EditorState) (h : EditorInv st) :
    (handleKey 10 st).bind (handleKey 127) = some st := by
  obtain ⟨lines, li, col⟩ := st
  obtain ⟨hli, hcol⟩ := h
  simp only at hli hcol
  set L := lines.getD li [] with hL
  have hget : lines[li]? = some L := by
    rw [hL]; simp [List.getElem?_eq_getElem hli]
  have h10 : handleKey 10 ⟨lines, li, col⟩ = enterKey ⟨lines, li, col⟩ := by
    simp [handleKey]
  rw [h10]
  unfold enterKey
  simp only
  rw [hget]
  simp only [Option.map_some', Option.some_bind]
  have h127 : ∀ s : EditorState, handleKey 127 s = backspaceKey s := by
    intro s
    simp [handleKey]
  rw [h127]
  have hsetlen : (lines.set li (L.take col)).length = lines.length := by simp
  have hlenB : ((lines.set li (L.take col)).insertIdx (li + 1) (L.drop col)).length
      = lines.length + 1 := by
    rw [List.length_insertIdx _ _ (by rw [hsetlen]; omega)]
    rw [hsetlen]
  have hlt : li < (lines.set li (L.take col)).length := by rw [hsetlen]; omega
  have hBli : ((lines.set li (L.take col)).insertIdx (li + 1) (L.drop col))[li]?
      = some (L.take col) := by
    rw [List.getElem?_eq_getElem (by rw [hlenB]; omega)]
    rw [List.getElem_insertIdx_of_lt _ _ _ _ (Nat.lt_succ_self li) hlt]
    simp
  have hBli1 : ((lines.set li (L.take col)).insertIdx (li + 1) (L.drop col))[li + 1]?
      = some (L.drop col) := by
    rw [List.getElem?_eq_getElem (by rw [hlenB]; omega)]
    rw [List.getElem_insertIdx_self _ _ _ (by rw [hsetlen]; omega)]
  unfold backspaceKey
  simp only [Nat.lt_irrefl, if_false, Nat.add_sub_cancel]
  rw [if_pos (by omega)]
  rw [hBli, hBli1]
  simp only [Option.some_bind, Option.map_some']
  rw [List.take_append_drop]
  rw [set_insertIdx_of_lt _ _ _ _ _ (Nat.lt_succ_self li)]
  rw [List.set_set]
  rw [hL, set_getD_self _ _ _ hli]
  rw [List.eraseIdx_insertIdx]
  have hcl : (((lines.getD li []).take col)).length = col := by
    rw [← hL]
    simp [List.length_take]
    omega
  rw [hcl]

/-- Witness for C6, the spec scenario: buffer `["ab"]`, cursor `(0,2)`;
Enter yields `["ab", ""]` with cursor `(1,0)`, and Backspace restores
`["ab"]` with cursor `(0,2)`. -/
theorem enter_backspace_roundtrip_witness :
    handleKey 10 ⟨["ab".toList], 0, 2⟩ = some ⟨["ab".toList, []], 1, 0⟩ ∧
      (handleKey 10 ⟨["ab".toList], 0, 2⟩).bind (handleKey 127)
        = some ⟨["ab".toList], 0, 2⟩ :=
  ⟨by decide, enter_backspace_roundtrip ⟨["ab".toList], 0, 2⟩ (by decide)⟩

/-- C8: a keycode outside the handled set (not Escape, Ctrl+C, backspace,
delete, enter, an arrow key, Home, End, Tab, or printable ASCII 32–126)
leaves the buffer state completely unchanged and does not fail. -/
theorem unhandled_key_ignored (key : Nat) (st : EditorState)
    (h27 : key ≠ 27) (h3 : key ≠ 3) (hbs : key ≠ 263) (h127 : key ≠ 127)
    (h8 : key ≠ 8) (hdc : key ≠ 330) (hent : key ≠ 343) (h10 : key ≠ 10)
    (h13 : key ≠ 13) (hl : key ≠ 260) (hr : key ≠ 261) (hu : key ≠ 259)
    (hd : key ≠ 258) (hh : key ≠ 262) (he : key ≠ 360)
    (hp : ¬(32 ≤ key ∧ key ≤ 126)) (ht : key ≠ 9) :
    handleKey key st = some st := by
  unfold handleKey
  rw [if_neg (by simp [h27, h3]), if_neg (by simp [hbs, h127, h8]), if_neg hdc,
    if_neg (by simp [hent, h10, h13]), if_neg hl, if_neg hr, if_neg hu,
    if_neg hd, if_neg hh, if_neg he, if_neg hp, if_neg ht]

/-- Witness for C8 at key code 200 (unhandled). -/
theorem unhandled_key_ignored_witness :
    handleKey 200 ⟨[[]], 0, 0⟩ = some ⟨[[]], 0, 0⟩ :=
  unhandled_key_ignored 200 ⟨[[]], 0, 0⟩ (by omega) (by omega) (by omega)
    (by omega) (by omega) (by omega) (by omega) (by omega) (by omega)
    (by omega) (by omega) (by omega) (by omega) (by omega) (by omega)
    (by omega) (by omega)

/-! ### Viewport scrolling in `redraw` (claim C5) -/

/-- The scroll-adjustment recursion of `redraw`: compute
`cursor_screen_row = cursor_display_row - scroll_offset`; if it is
negative, set the offset to the cursor row and redraw again; if it is at
or beyond the viewport height `edit_h`, set the offset to
`cursor_display_row - edit_h + 1` and redraw again; otherwise the redraw
completes with the current offset.  The fuel argument bounds the
recursion depth; `none` means the redraw did not complete. -/
def redrawScroll : Nat → Nat → Nat → Nat → Option Nat
  | 0, _, _, _ => none
  | fuel + 1, scroll, cursorRow, editH =>
    if cursorRow < scroll then redrawScroll fuel cursorRow cursorRow editH
    else if editH ≤ cursorRow - scroll then
      redrawScroll fuel (cursorRow - editH + 1) cursorRow editH
    else some scroll

/-- C5: for a positive viewport height, the redraw completes after at most
one scroll adjustment, and afterwards the cursor's display row lies in
`[top, top + editH)`; when the cursor was at or below the bottom edge the
new top is `cursor_row - editH + 1`, and when it was above the top edge
the new top is the cursor's row. -/
theorem redraw_scroll_invariant (scroll cursorRow editH : Nat) (hh : 0 < editH) :
    ∃ top, redrawScroll 2 scroll cursorRow editH = some top ∧
      top ≤ cursorRow ∧ cursorRow < top + editH ∧
      (¬cursorRow < scroll → editH ≤ cursorRow - scroll →
        top = cursorRow - editH + 1) ∧
      (cursorRow < scroll → top = cursorRow) := by
  by_cases c1 : cursorRow < scroll
  · refine ⟨cursorRow, ?_, le_rfl, by omega, fun hc => absurd c1 hc, fun _ => rfl⟩
    show redrawScroll 2 scroll cursorRow editH = some cursorRow
    unfold redrawScroll
    rw [if_pos c1]
    unfold redrawScroll
    rw [if_neg (by omega), if_neg (by omega)]
  · by_cases c2 : editH ≤ cursorRow - scroll
    · refine ⟨cursorRow - editH + 1, ?_, by omega, by omega,
        fun _ _ => rfl, fun hc => absurd hc c1⟩
      unfold redrawScroll
      rw [if_neg c1, if_pos c2]
      unfold redrawScroll
      rw [if_neg (by omega), if_neg (by omega)]
    · refine ⟨scroll, ?_, by omega, by omega,
        fun _ hc => absurd hc c2, fun hc => absurd hc c1⟩
      unfold redrawScroll
      rw [if_neg c1, if_neg c2]

/-- Witness for C5, the spec scenario: viewport height 3, cursor at display
row 9, previous scroll top 6 → new top 7. -/
theorem redraw_scroll_invariant_witness :
    (∃ top, redrawScroll 2 6 9 3 = some top ∧
      top ≤ 9 ∧ 9 < top + 3 ∧
      (¬(9 : Nat) < 6 → 3 ≤ 9 - 6 → top = 9 - 3 + 1) ∧ ((9 : Nat) < 6 → top = 9)) ∧
      redrawScroll 2 6 9 3 = some 7 :=
  ⟨redraw_scroll_invariant 6 9 3 (by omega), by decide⟩

/-! ### Code-fence parity in `view_single_entry_screen` (claim C7) -/

/-- ASCII whitespace as stripped by Python `str.strip()` and matched by
the renderer's `\s`. -/
def isPySpace (c : Char) : Bool :=
  (c == '\x20') || (c == '\x09') || (c == '\x0a') ||
    (c == '\x0d') || (c == '\x0b') || (c == '\x0c')

/-- The backtick character. -/
def backtick : Char := Char.ofNat 96

/-- Python `line.strip()` on ASCII whitespace. -/
def pyStrip (l : List Char) : List Char :=
  ((l.dropWhile isPySpace).reverse.dropWhile isPySpace).reverse

/-- `line.strip().startswith('```')` — the fence-marker test. -/
def is_code_fence (line : List Char) : Bool :=
  [backtick, backtick, backtick].isPrefixOf (pyStrip line)

/-- The `in_code_block` state of the preprocessing loop of
`view_single_entry_screen` when it reaches line index `R`: a single
forward scan over `lines[0..R)` flipping a boolean at each fence-marker
line. -/
def scanFlag (lines : List (List Char)) (R : Nat) : Bool :=
  (lines.take R).foldl (fun b l => if is_code_fence l then !b else b) false

/-- The `is_code_block` flags the preprocessing loop assigns to each line:
a fence line is flagged `False`, any other line is flagged with the
current `in_code_block` state. -/
def codeFlags : List (List Char) → Bool → List Bool
  | [], _ => []
  | l :: rest, b =>
    if is_code_fence l then false :: codeFlags rest (!b)
    else b :: codeFlags rest b

/-- Modelled from the spec: the declarative fence-parity definition,
`parity(lines, R)` = "number of fence-marker lines with index < R, odd".
(The second definition of this refinement claim; the scan above is the
code's.) -/
def fenceParity (lines : List (List Char)) (R : Nat) : Bool :=
  (lines.take R).countP is_code_fence % 2 == 1

theorem parity_succ_bit (n : Nat) : ((n + 1) % 2 == 1) = !(n % 2 == 1) := by
  rcases Nat.mod_two_eq_zero_or_one n with h | h <;>
    simp [Nat.add_mod, h]

theorem foldl_toggle_eq_xor (l : List (List Char)) (b : Bool) :
    l.foldl (fun b l => if is_code_fence l then !b else b) b
      = xor b (l.countP is_code_fence % 2 == 1) := by
  induction l generalizing b with
  | nil => simp
  | cons x rest ih =>
    simp only [List.foldl_cons, List.countP_cons]
    by_cases hx : is_code_fence x
    · rw [if_pos hx, ih]
      simp [hx, parity_succ_bit]
    · rw [if_neg hx, ih]
      simp [hx]

theorem codeFlags_getD (lines : List (List Char)) :
    ∀ (R : Nat) (b : Bool), R < lines.length →
      is_code_fence (lines.getD R []) = false →
      (codeFlags lines b).getD R false
        = xor b ((lines.take R).countP is_code_fence % 2 == 1) := by
  induction lines with
  | nil => intro R b h; simp at h
  | cons x rest ih =>
    intro R b hR hf
    cases R with
    | zero =>
      simp only [List.getD_cons_zero] at hf
      simp [codeFlags, hf]
    | succ R' =>
      simp only [List.getD_cons_succ] at hf
      have hR' : R' < rest.length := by simpa using hR
      simp only [codeFlags, List.take_succ_cons, List.countP_cons]
      by_cases hx : is_code_fence x
      · rw [if_pos hx]
        simp only [List.getD_cons_succ]
        rw [ih R' (!b) hR' hf]
        simp [hx, parity_succ_bit]
      · rw [if_neg hx]
        simp only [List.getD_cons_succ]
        rw [ih R' b hR' hf]
        simp [hx]

/-- C7: the incremental fence state of the forward scan agrees with the
declarative parity definition at every row, and a non-fence line at index
`R` is flagged as inside a code block iff the number of fence-marker lines
before `R` is odd. -/
theorem fence_scan_eq_parity :
    (∀ (lines : List (List Char)) (R : Nat), scanFlag lines R = fenceParity lines R) ∧
      (∀ (lines : List (List Char)) (R : Nat), R < lines.length →
        is_code_fence (lines.getD R []) = false →
        (codeFlags lines false).getD R false = fenceParity lines R) := by
  constructor
  · intro lines R
    unfold scanFlag fenceParity
    rw [foldl_toggle_eq_xor]
    simp
  · intro lines R hR hf
    unfold fenceParity
    rw [codeFlags_getD lines R false hR hf]
    simp

/-- Witness for C7 on a concrete document: line 3 (after the fence pair)
is outside, line 1 (after one fence) is inside. -/
theorem fence_scan_eq_parity_witness :
    scanFlag [[backtick, backtick, backtick], ['a'], [backtick, backtick, backtick], ['b']] 1
        = fenceParity [[backtick, backtick, backtick], ['a'], [backtick, backtick, backtick], ['b']] 1 ∧
      (codeFlags [[backtick, backtick, backtick], ['a'], [backtick, backtick, backtick], ['b']] false).getD 3 false
        = fenceParity [[backtick, backtick, backtick], ['a'], [backtick, backtick, backtick], ['b']] 3 :=
  ⟨fence_scan_eq_parity.1 _ 1,
   fence_scan_eq_parity.2 _ 3 (by decide) (by decide)⟩

/-! ### Commit of an empty document (claim C10) -/

/-- `"\n".join(lines)` — the text returned when Escape commits the editor
session. -/
def joinNewline : List (List Char) → List Char
  | [] => []
  | [l] => l
  | l :: ls => l ++ '\n' :: joinNewline ls

/-- The value returned by `get_multiline_input` on Ctrl+C or
`KeyboardInterrupt`: the empty string. -/
def cancelResult : List Char := []

/-- `add_new_entry_screen` saves the entry iff the returned content is a
truthy (non-empty) string (`if content:`). -/
def add_new_entry_saves (content : List Char) : Bool := !content.isEmpty

/-- C10: committing a buffer consisting of a single empty line returns the
empty string — the very value returned by Cancel — so the caller treats
both identically as "not saved". -/
theorem empty_commit_equals_cancel :
    joinNewline [[]] = cancelResult ∧
      add_new_entry_saves (joinNewline [[]]) = false ∧
      add_new_entry_saves cancelResult = false := by
  refine ⟨rfl, rfl, rfl⟩

/-! ### Markdown line classification in `render_markdown_line` (claim C9) -/

/-- The outcome of `render_markdown_line` for one line: which branch fires
and what it draws.  For a list item the `-`/`*` marker is drawn as the
bullet glyph `"• "` (numbered markers keep their digits followed by a
space) and `text` is the remainder handed to `render_inline_markdown`. -/
inductive MarkdownLine where
  | header (level : Nat) (text : List Char)
  | listItem (indent marker glyph text : List Char)
  | fence
  | plain (text : List Char)
deriving DecidableEq

/-- Does the regex token `\s+` match at the start of this text? -/
def startsWithSpace : List Char → Bool
  | [] => false
  | c :: _ => isPySpace c

/-- The list-marker alternative `([-*]|\d+\.)` of the list regex, at the
start of `l`: the matched marker and the remaining text. -/
def listMarker (l : List Char) : Option (List Char × List Char) :=
  match l with
  | [] => none
  | c :: rest =>
    if c == '-' || c == '*' then some ([c], rest)
    else if (l.takeWhile Char.isDigit) ≠ [] then
      match l.dropWhile Char.isDigit with
      | '.' :: rest' => some (l.takeWhile Char.isDigit ++ ['.'], rest')
      | _ => none
    else none

/-- The glyph printed in place of the marker: `• ` for `-`/`*`, the marker
itself plus a space for numbered markers. -/
def bulletGlyph (marker : List Char) : List Char :=
  if marker = ['-'] ∨ marker = ['*'] then ['•', ' '] else marker ++ [' ']

/-- The fence test and plain fallback, tried after header and list. -/
def fenceOrPlain (line : List Char) : MarkdownLine :=
  if is_code_fence line then MarkdownLine.fence else MarkdownLine.plain line

/-- `render_markdown_line` from `journal.py`, as a line classifier: first
the header regex `^(#{1,6})\s+(.*)$`, then the list regex
`^(\s*)([-*]|\d+\.)\s+(.*)$`, then the code-fence test, then plain. -/
def render_markdown_line (line : List Char) : MarkdownLine :=
  if 1 ≤ (line.takeWhile (fun c => c == '#')).length ∧
      (line.takeWhile (fun c => c == '#')).length ≤ 6 ∧
      startsWithSpace (line.dropWhile (fun c => c == '#')) then
    MarkdownLine.header (line.takeWhile (fun c => c == '#')).length
      ((line.dropWhile (fun c => c == '#')).dropWhile isPySpace)
  else
    match listMarker (line.dropWhile isPySpace) with
    | some (marker, rest) =>
      if startsWithSpace rest then
        MarkdownLine.listItem (line.takeWhile isPySpace) marker
          (bulletGlyph marker) (rest.dropWhile isPySpace)
      else fenceOrPlain line
    | none => fenceOrPlain line

theorem isPySpace_not_hash {c : Char} (h : isPySpace c = true) :
    (c == '#') = false := by
  by_contra hc
  rw [Bool.not_eq_false, beq_iff_eq] at hc
  subst hc
  exact absurd h (by decide)

theorem isDigit_not_pySpace {c : Char} (h : c.isDigit = true) :
    isPySpace c = false := by
  by_contra hc
  rw [Bool.not_eq_false] at hc
  simp only [isPySpace, Bool.or_eq_true, beq_iff_eq] at hc
  rcases hc with ((((rfl | rfl) | rfl) | rfl) | rfl) | rfl <;>
    exact absurd h (by decide)

theorem isDigit_not_hash {c : Char} (h : c.isDigit = true) :
    (c == '#') = false := by
  by_contra hc
  rw [Bool.not_eq_false, beq_iff_eq] at hc
  subst hc
  exact absurd h (by decide)

theorem isDigit_not_dash {c : Char} (h : c.isDigit = true) :
    (c == '-') = false := by
  by_contra hc
  rw [Bool.not_eq_false, beq_iff_eq] at hc
  subst hc
  exact absurd h (by decide)

theorem isDigit_not_star {c : Char} (h : c.isDigit = true) :
    (c == '*') = false := by
  by_contra hc
  rw [Bool.not_eq_false, beq_iff_eq] at hc
  subst hc
  exact absurd h (by decide)

/-- C9: `"- item one"` is classified as a list item whose `-` marker is
drawn as the bullet glyph with the text `"item one"` passed on unchanged;
generally, a line of the shape `indent ++ marker ++ spaces ++ text` with a
whitespace indent, a `-`/`*`/`digits.`-marker, at least one space and a
text not starting with whitespace is rendered as a list item with the
marker replaced by its glyph and exactly `text` handed to the inline
renderer. -/
theorem list_item_rendering :
    (render_markdown_line "- item one".toList
      = MarkdownLine.listItem [] ['-'] ['•', ' '] "item one".toList) ∧
    (∀ (indent marker sp text : List Char),
      (∀ c ∈ indent, isPySpace c = true) →
      (∀ c ∈ sp, isPySpace c = true) → sp ≠ [] →
      (marker = ['-'] ∨ marker = ['*'] ∨
        (∃ ds, ds ≠ [] ∧ (∀ c ∈ ds, c.isDigit = true) ∧ marker = ds ++ ['.'])) →
      (∀ c, text.head? = some c → isPySpace c = false) →
      render_markdown_line (indent ++ (marker ++ (sp ++ text)))
        = MarkdownLine.listItem indent marker (bulletGlyph marker) text) := by
  constructor
  · decide
  · intro indent marker sp text hind hsp hspne hm htext
    -- the head character of `marker`, and its properties
    obtain ⟨mh, mt, hmh, hmhspace, hmhhash, hmhmk⟩ :
        ∃ mh mt, marker = mh :: mt ∧ isPySpace mh = false ∧ (mh == '#') = false ∧
          ((mh == '-' || mh == '*') = true ∨ mh.isDigit = true) := by
      rcases hm with rfl | rfl | ⟨ds, hds, hdig, rfl⟩
      · exact ⟨'-', [], rfl, by decide, by decide, Or.inl (by decide)⟩
      · exact ⟨'*', [], rfl, by decide, by decide, Or.inl (by decide)⟩
      · rcases ds with _ | ⟨d, ds'⟩
        · exact absurd rfl hds
        · have hd : d.isDigit = true := hdig d (by simp)
          exact ⟨d, ds' ++ ['.'], rfl, isDigit_not_pySpace hd, isDigit_not_hash hd,
            Or.inr hd⟩
    -- the header regex does not match: the line has no leading '#'
    have hhash : ((indent ++ (marker ++ (sp ++ text))).takeWhile
        (fun c => c == '#')).length = 0 := by
      cases indent with
      | nil =>
        rw [hmh]
        simp only [List.nil_append, List.cons_append]
        rw [List.takeWhile_cons_of_neg (by simp [hmhhash])]
        rfl
      | cons c ind' =>
        have hc : isPySpace c = true := hind c (by simp)
        simp only [List.cons_append]
        rw [List.takeWhile_cons_of_neg (by simp [isPySpace_not_hash hc])]
        rfl
    -- after stripping the whitespace indent the line starts with the marker
    have hdrop : (indent ++ (marker ++ (sp ++ text))).dropWhile isPySpace
        = marker ++ (sp ++ text) := by
      rw [List.dropWhile_append_of_pos hind, hmh, List.cons_append]
      rw [List.dropWhile_cons_of_neg (by simp [hmhspace])]
    -- the indent is recovered exactly
    have htake : (indent ++ (marker ++ (sp ++ text))).takeWhile isPySpace
        = indent := by
      rw [List.takeWhile_append_of_pos hind, hmh, List.cons_append]
      rw [List.takeWhile_cons_of_neg (by simp [hmhspace])]
      simp
    -- the marker alternative matches and consumes exactly the marker
    have hmark : listMarker (marker ++ (sp ++ text)) = some (marker, sp ++ text) := by
      rcases hm with rfl | rfl | ⟨ds, hds, hdig, rfl⟩
      · simp [listMarker]
      · simp [listMarker]
      · rcases ds with _ | ⟨d, ds'⟩
        · exact absurd rfl hds
        · have hd : d.isDigit = true := hdig d (by simp)
          have hds' : ∀ c ∈ ds', Char.isDigit c = true := fun c hc =>
            hdig c (by simp [hc])
          have hshape : ((d :: ds') ++ ['.']) ++ (sp ++ text)
              = d :: (ds' ++ ('.' :: (sp ++ text))) := by simp
          rw [hshape]
          have htw : (d :: (ds' ++ ('.' :: (sp ++ text)))).takeWhile Char.isDigit
              = d :: ds' := by
            rw [List.takeWhile_cons_of_pos hd,
              List.takeWhile_append_of_pos hds',
              List.takeWhile_cons_of_neg (by decide)]
            simp
          have hdw : (d :: (ds' ++ ('.' :: (sp ++ text)))).dropWhile Char.isDigit
              = '.' :: (sp ++ text) := by
            rw [List.dropWhile_cons_of_pos hd,
              List.dropWhile_append_of_pos hds',
              List.dropWhile_cons_of_neg (by decide)]
          simp only [listMarker]
          rw [if_neg (by simp [isDigit_not_dash hd, isDigit_not_star hd])]
          rw [if_pos (by rw [htw]; simp)]
          rw [hdw]
          simp [htw]
    unfold render_markdown_line
    rw [if_neg (by simp [hhash]), hdrop, hmark]
    have hsw : startsWithSpace (sp ++ text) = true := by
      cases sp with
      | nil => exact absurd rfl hspne
      | cons c tl =>
        have := hsp c (by simp)
        simpa [startsWithSpace] using this
    have hrest : (sp ++ text).dropWhile isPySpace = text := by
      rw [List.dropWhile_append_of_pos hsp]
      cases text with
      | nil => rfl
      | cons c tl => rw [List.dropWhile_cons_of_neg (by simp [htext c rfl])]
    simp [hsw, htake, hrest]

/-- Witness for C9's general part at a numbered list item with indent. -/
theorem list_item_rendering_witness :
    render_markdown_line ("  ".toList ++ ("12.".toList ++ (" ".toList ++ "hello".toList)))
      = MarkdownLine.listItem "  ".toList "12.".toList (bulletGlyph "12.".toList)
          "hello".toList :=
  list_item_rendering.2 "  ".toList "12.".toList " ".toList "hello".toList
    (by decide) (by decide) (by decide)
    (Or.inr (Or.inr ⟨"12".toList, by decide, by decide, by decide⟩))
    (by intro c hc; simp at hc; subst hc; decide)

end Journal

